import Mathlib

/-!
Shallow embedding of `src/phy/delay_injector.rs` from the HKalbasi/smoltcp
repository: the `DelayInjector<D>` fault-injector device that delays packets
traversing it.

Modelling conventions:
* `Instant` is modelled as `ℤ` (microsecond count) and `Duration` as `ℤ`;
  the claims do not depend on machine-integer overflow of the time types.
* packet bytes (`Vec<u8>`) are `List ℕ`; `PacketMeta` is an opaque `ℕ` id.
* The wrapped inner device is external to this file's state.  Its responses
  are supplied as oracle inputs to each operation (`rxIn` for what
  `inner.receive(now)` yields, `grant k` for whether the k-th
  `inner.transmit(now)` call of a drain grants a token), and the calls the
  injector makes on the inner device are returned as an explicit event trace
  (`InnerEvent`).  `receive` and `transmit` of the injector make no inner
  calls in the source, so they take no oracle and return an empty trace.
* The `while let` drain loop in `poll` is modelled with explicit fuel; the
  loop body is translated branch by branch, including the branch where the
  front entry is not yet due, in which the source re-enters the loop with an
  unchanged queue (the source has no `break`, so that branch spins).
-/

/-- Event emitted when the injector invokes the wrapped inner device:
one `inner.receive` call (with its result), one `inner.transmit` call
(recording whether a token was granted), or the consumption of a granted
transmit token, copying `bytes` into the inner device's slot. -/
inductive InnerEvent where
  | recvCall (res : Option (List ℕ × ℕ))
  | transCall (granted : Bool)
  | send (bytes : List ℕ)
deriving DecidableEq, Repr

/-- Payloads of the `send` events of a trace, in order: the byte buffers that
reached the inner device's transmit path. -/
def InnerEvent.sends : List InnerEvent → List (List ℕ)
  | [] => []
  | InnerEvent.send b :: tr => b :: InnerEvent.sends tr
  | _ :: tr => InnerEvent.sends tr

/-- Number of `inner.transmit` calls recorded in a trace. -/
def InnerEvent.requests : List InnerEvent → ℕ
  | [] => 0
  | InnerEvent.transCall _ :: tr => InnerEvent.requests tr + 1
  | _ :: tr => InnerEvent.requests tr

/-- Number of `inner.receive` calls recorded in a trace. -/
def InnerEvent.recvCalls : List InnerEvent → ℕ
  | [] => 0
  | InnerEvent.recvCall _ :: tr => InnerEvent.recvCalls tr + 1
  | _ :: tr => InnerEvent.recvCalls tr

/-- Entry of `rx_queue : VecDeque<(Vec<u8>, Instant, PacketMeta)>`. -/
structure RxEntry where
  buf : List ℕ
  release : ℤ
  meta : ℕ
deriving DecidableEq, Repr

/-- Entry of `tx_queue : VecDeque<(Vec<u8>, Instant)>`. -/
structure TxEntry where
  buf : List ℕ
  release : ℤ
deriving DecidableEq, Repr

/-- State of `DelayInjector<D>`, minus the inner device (which is external,
see the module comment). -/
structure DelayInjector where
  delay : ℤ
  rx_queue : List RxEntry
  tx_queue : List TxEntry
deriving DecidableEq, Repr

/-- The `MTU` ceiling constant of `delay_injector.rs` (`const MTU: usize = 1536`). -/
def MTU : ℕ := 1536

/-- Fields of smoltcp's `DeviceCapabilities` that the injector passes through;
`max_transmission_unit` is the only field `capabilities` touches.  The other
fields are modelled as opaque values. -/
structure DeviceCapabilities where
  medium : ℕ
  max_transmission_unit : ℕ
  max_burst_size : Option ℕ
  checksum : ℕ
deriving DecidableEq, Repr

namespace DelayInjector

/-- `DelayInjector::new(inner, delay)`: both queues start empty. -/
def new (delay : ℤ) : DelayInjector :=
  { delay := delay, rx_queue := [], tx_queue := [] }

/-- `DelayInjector::into_inner(self)`: returns the inner device, dropping the
injector (and with it both queues).  The pair models (inner device state,
injector state). -/
def into_inner {ι : Type} (p : ι × DelayInjector) : ι :=
  p.1

/-- `DelayInjector::capabilities`: the inner capability set with
`max_transmission_unit` lowered to `MTU` when it exceeds it.  Takes `&self`
in the source, so it is a pure function of the inner capability set. -/
def capabilities (c : DeviceCapabilities) : DeviceCapabilities :=
  if c.max_transmission_unit > MTU then { c with max_transmission_unit := MTU } else c

/-- `DelayInjector::transmit(timestamp)`: pushes `(vec![], timestamp)` onto the
back of `tx_queue` and returns `Some` token bound to that entry's buffer (the
token is modelled by the entry's index).  Makes no inner-device call, hence
the empty trace. -/
def transmit (s : DelayInjector) (now : ℤ) :
    Option ℕ × DelayInjector × List InnerEvent :=
  (some s.tx_queue.length,
   { s with tx_queue := s.tx_queue ++ [⟨[], now⟩] },
   [])

/-- `DelayInjector::receive(timestamp)`: if `rx_queue` has a front entry whose
release time is not after `timestamp`, pop it and pair its buffer and
metadata with the token of `self.transmit(timestamp)`; otherwise `None`.
Makes no inner-device call, hence the empty trace. -/
def receive (s : DelayInjector) (now : ℤ) :
    Option (List ℕ × ℕ × ℕ) × DelayInjector × List InnerEvent :=
  match s.rx_queue with
  | [] => (none, s, [])
  | e :: rest =>
    if e.release > now then (none, s, [])
    else
      match transmit { s with rx_queue := rest } now with
      | (some tok, s2, tr) => (some (e.buf, e.meta, tok), s2, tr)
      | (none, s2, tr) => (none, s2, tr)

/-- The `while let Some(front) = self.tx_queue.front()` drain loop of
`DelayInjector::poll`, with fuel.  `k` counts the `inner.transmit` calls made
so far (it indexes the `grant` oracle).  Branches follow the source: the loop
exits only when the queue is empty; a due front entry is popped (empty buffers
are skipped with `continue`, non-empty ones request an inner transmit token
and, when granted, have their bytes copied into it); a front entry that is not
yet due leaves the queue unchanged and the loop re-runs — the source has no
`break`, so that branch never makes progress and the fuel runs out.  Returns
the trace of inner calls made so far and, when the loop exited, the final
queue. -/
def drainTx (now : ℤ) (grant : ℕ → Bool) :
    ℕ → List TxEntry → ℕ → List InnerEvent × Option (List TxEntry)
  | _, _, 0 => ([], none)
  | k, q, fuel + 1 =>
    match q with
    | [] => ([], some [])
    | e :: rest =>
      if e.release < now then
        if e.buf = [] then
          drainTx now grant k rest fuel
        else
          let g := grant k
          let (tr, res) := drainTx now grant (k + 1) rest fuel
          ((InnerEvent.transCall g :: if g then InnerEvent.send e.buf :: tr else tr), res)
      else
        drainTx now grant k (e :: rest) fuel

/-- Step 1 of `DelayInjector::poll(timestamp)`: the single `inner.receive`
attempt.  When the inner device yields a packet, its bytes are copied
(`buffer.to_vec()`) into a new back entry of `rx_queue` with release time
`timestamp + self.delay` and the packet's metadata. -/
def pollRx (s : DelayInjector) (now : ℤ) (rxIn : Option (List ℕ × ℕ)) :
    DelayInjector :=
  match rxIn with
  | some (b, m) => { s with rx_queue := s.rx_queue ++ [⟨b, now + s.delay, m⟩] }
  | none => s

/-- `DelayInjector::poll(timestamp)`: one `inner.receive` call whose yielded
packet (if any) is pushed onto `rx_queue` with release time `now + delay`
(`pollRx`), followed by the `drainTx` loop over `tx_queue`.  Returns the trace
of inner calls and, when the drain loop exited, the post state. -/
def poll (s : DelayInjector) (now : ℤ) (rxIn : Option (List ℕ × ℕ))
    (grant : ℕ → Bool) (fuel : ℕ) :
    List InnerEvent × Option DelayInjector :=
  let s1 := pollRx s now rxIn
  match drainTx now grant 0 s1.tx_queue fuel with
  | (tr, some q) => (InnerEvent.recvCall rxIn :: tr, some { s1 with tx_queue := q })
  | (tr, none) => (InnerEvent.recvCall rxIn :: tr, none)

end DelayInjector

/-- Specification of which bytes a completed drain loop copies to the inner
device under an arbitrary grant oracle.  `k` is the running count of inner
transmit requests made so far (the index fed to the oracle): an entry with an
empty buffer is discarded without a request and does not advance `k`; a
non-empty buffer requests once, advancing `k`, and its bytes are copied
exactly when the oracle grants that request. -/
def grantedSends (grant : ℕ → Bool) : ℕ → List TxEntry → List (List ℕ)
  | _, [] => []
  | k, e :: rest =>
    if e.buf = [] then grantedSends grant k rest
    else if grant k then e.buf :: grantedSends grant (k + 1) rest
    else grantedSends grant (k + 1) rest

/-!
Ghost-instrumented semantics, used for the history-dependent invariants
(release time vs. enqueue time, FIFO delivery order).  Each queue entry
carries, in addition to the fields of the source (`buf`, `release`,
`meta`), two ghost fields: `enq`, the timestamp passed to the call that
created the entry, and `seq`, the position of the entry in the order those
calls were made (inner-receive yields for the inbound queue, transmit-token
creations for the outbound queue).  The ghost state also logs `recvOut`
(the `seq`s of packets returned by `receive`, in order) and `sentOut`
(the `seq`s of outbound buffers whose bytes were copied to the inner
device, in order).  The operations are those of `DelayInjector`, extended
with the caller's use of the returned transmit token: `bytes` is what the
caller writes through the token before the next operation (`[]` when the
token is dropped unused), which is legal because the token mutably borrows
the queue, so no other operation can run while it is alive.
-/

/-- Ghost-instrumented inbound queue entry. -/
structure GRx where
  buf : List ℕ
  release : ℤ
  meta : ℕ
  enq : ℤ
  seq : ℕ
deriving DecidableEq, Repr

/-- Ghost-instrumented outbound queue entry. -/
structure GTx where
  buf : List ℕ
  release : ℤ
  enq : ℤ
  seq : ℕ
deriving DecidableEq, Repr

/-- Ghost-instrumented injector state. -/
structure GState where
  delay : ℤ
  rxq : List GRx
  txq : List GTx
  rxNext : ℕ
  txNext : ℕ
  recvOut : List ℕ
  sentOut : List ℕ
deriving DecidableEq, Repr

/-- Ghost counterpart of `DelayInjector.drainTx`: same loop over the
instrumented queue, returning the `seq`s of the entries whose bytes were
copied to the inner device (popped, non-empty, token granted), in order. -/
def gdrain (now : ℤ) (grant : ℕ → Bool) :
    ℕ → List GTx → ℕ → List ℕ × Option (List GTx)
  | _, _, 0 => ([], none)
  | k, q, fuel + 1 =>
    match q with
    | [] => ([], some [])
    | e :: rest =>
      if e.release < now then
        if e.buf = [] then gdrain now grant k rest fuel
        else
          let (out, res) := gdrain now grant (k + 1) rest fuel
          (if grant k then e.seq :: out else out, res)
      else gdrain now grant k (e :: rest) fuel

/-- Ghost counterpart of `DelayInjector.pollRx`: a yielded packet is stamped
with release time `now + delay`, ghost enqueue time `now` and the next
inbound sequence number. -/
def gpollRx (g : GState) (now : ℤ) (rxIn : Option (List ℕ × ℕ)) : GState :=
  match rxIn with
  | some (b, m) =>
    { g with rxq := g.rxq ++ [⟨b, now + g.delay, m, now, g.rxNext⟩],
             rxNext := g.rxNext + 1 }
  | none => g

/-- Ghost counterpart of `DelayInjector.poll`. -/
def gpoll (g : GState) (now : ℤ) (rxIn : Option (List ℕ × ℕ))
    (grant : ℕ → Bool) (fuel : ℕ) : Option GState :=
  let g1 := gpollRx g now rxIn
  match gdrain now grant 0 g1.txq fuel with
  | (out, some q) => some { g1 with txq := q, sentOut := g1.sentOut ++ out }
  | (_, none) => none

/-- Ghost counterpart of `DelayInjector.transmit`, combined with the caller's
use of the returned token: the new outbound entry holds the `bytes` the
caller wrote through the token (`[]` when the token was dropped), release
time `now`, ghost enqueue time `now` and the next outbound sequence number. -/
def gtransmit (g : GState) (now : ℤ) (bytes : List ℕ) : GState :=
  { g with txq := g.txq ++ [⟨bytes, now, now, g.txNext⟩],
           txNext := g.txNext + 1 }

/-- Ghost counterpart of `DelayInjector.receive`, combined with the caller's
use of the paired transmit token (`bytes`, as in `gtransmit`): a due front
entry is popped, its `seq` logged in `recvOut`, and the paired outbound entry
appended. -/
def greceive (g : GState) (now : ℤ) (bytes : List ℕ) :
    Option (List ℕ × ℕ) × GState :=
  match g.rxq with
  | [] => (none, g)
  | e :: rest =>
    if e.release > now then (none, g)
    else
      (some (e.buf, e.meta),
       { g with rxq := rest,
                recvOut := g.recvOut ++ [e.seq],
                txq := g.txq ++ [⟨bytes, now, now, g.txNext⟩],
                txNext := g.txNext + 1 })

/-- States of the ghost machine reachable from a fresh
`DelayInjector::new(inner, d)` by any interleaving of `poll`, `receive` and
`transmit` calls (each `poll` step requires its drain loop to exit, since a
spinning `poll` call never returns a state). -/
inductive GReach (d : ℤ) : GState → Prop where
  | base : GReach d ⟨d, [], [], 0, 0, [], []⟩
  | poll {g g' : GState} (now : ℤ) (rxIn : Option (List ℕ × ℕ))
      (grant : ℕ → Bool) (fuel : ℕ) :
      GReach d g → gpoll g now rxIn grant fuel = some g' → GReach d g'
  | recv {g : GState} (now : ℤ) (bytes : List ℕ) :
      GReach d g → GReach d (greceive g now bytes).2
  | trans {g : GState} (now : ℤ) (bytes : List ℕ) :
      GReach d g → GReach d (gtransmit g now bytes)

/-- Sequence-number invariant: delivered `seq`s followed by queued `seq`s are
strictly increasing (so deliveries are FIFO and queues are FIFO by creation
order), and every logged or queued `seq` is below the corresponding
counter. -/
def SeqInv (g : GState) : Prop :=
  (g.recvOut ++ g.rxq.map GRx.seq).Sorted (· < ·) ∧
  (g.sentOut ++ g.txq.map GTx.seq).Sorted (· < ·) ∧
  (∀ i ∈ g.recvOut ++ g.rxq.map GRx.seq, i < g.rxNext) ∧
  (∀ i ∈ g.sentOut ++ g.txq.map GTx.seq, i < g.txNext)

/-- Concrete ghost state used to exhibit the outbound release-time stamp:
the state reached from `new(inner, 5)` by one `transmit(10)` whose token is
dropped. -/
def ghostAfterTransmit : GState :=
  gtransmit ⟨5, [], [], 0, 0, [], []⟩ 10 []

section TraceObservers

@[simp]
theorem sends_nil : InnerEvent.sends [] = [] := rfl

@[simp]
theorem sends_send (b : List ℕ) (tr : List InnerEvent) :
    InnerEvent.sends (InnerEvent.send b :: tr) = b :: InnerEvent.sends tr := rfl

@[simp]
theorem sends_transCall (g : Bool) (tr : List InnerEvent) :
    InnerEvent.sends (InnerEvent.transCall g :: tr) = InnerEvent.sends tr := rfl

@[simp]
theorem sends_recvCall (r : Option (List ℕ × ℕ)) (tr : List InnerEvent) :
    InnerEvent.sends (InnerEvent.recvCall r :: tr) = InnerEvent.sends tr := rfl

@[simp]
theorem requests_nil : InnerEvent.requests [] = 0 := rfl

@[simp]
theorem requests_send (b : List ℕ) (tr : List InnerEvent) :
    InnerEvent.requests (InnerEvent.send b :: tr) = InnerEvent.requests tr := rfl

@[simp]
theorem requests_transCall (g : Bool) (tr : List InnerEvent) :
    InnerEvent.requests (InnerEvent.transCall g :: tr) = InnerEvent.requests tr + 1 := rfl

@[simp]
theorem requests_recvCall (r : Option (List ℕ × ℕ)) (tr : List InnerEvent) :
    InnerEvent.requests (InnerEvent.recvCall r :: tr) = InnerEvent.requests tr := rfl

@[simp]
theorem recvCalls_nil : InnerEvent.recvCalls [] = 0 := rfl

@[simp]
theorem recvCalls_send (b : List ℕ) (tr : List InnerEvent) :
    InnerEvent.recvCalls (InnerEvent.send b :: tr) = InnerEvent.recvCalls tr := rfl

@[simp]
theorem recvCalls_transCall (g : Bool) (tr : List InnerEvent) :
    InnerEvent.recvCalls (InnerEvent.transCall g :: tr) = InnerEvent.recvCalls tr := rfl

@[simp]
theorem recvCalls_recvCall (r : Option (List ℕ × ℕ)) (tr : List InnerEvent) :
    InnerEvent.recvCalls (InnerEvent.recvCall r :: tr) = InnerEvent.recvCalls tr + 1 := rfl

end TraceObservers

section DrainLemmas

/-- When the front outbound entry is not yet due, the source's drain loop makes
no progress (the `if` guard fails and there is no `break`): the fuelled model
returns no final queue and an empty trace for every fuel. -/
theorem drainTx_spin (now : ℤ) (grant : ℕ → Bool) (k : ℕ) (e : TxEntry)
    (rest : List TxEntry) (h : ¬ e.release < now) (fuel : ℕ) :
    DelayInjector.drainTx now grant k (e :: rest) fuel = ([], none) := by
  induction fuel with
  | zero => rfl
  | succ n ih => simp only [DelayInjector.drainTx, if_neg h]; exact ih

/-- A drain loop run that exits did so with an empty queue, so every entry it
started with was strictly due. -/
theorem drainTx_complete (now : ℤ) (grant : ℕ → Bool) :
    ∀ (fuel k : ℕ) (q : List TxEntry) (tr : List InnerEvent) (q' : List TxEntry),
      DelayInjector.drainTx now grant k q fuel = (tr, some q') →
      q' = [] ∧ ∀ e ∈ q, e.release < now := by
  intro fuel
  induction fuel with
  | zero =>
    intro k q tr q' h
    simp only [DelayInjector.drainTx, Prod.mk.injEq] at h
    exact absurd h.2 (by simp)
  | succ n ih =>
    intro k q tr q' h
    match q with
    | [] =>
      simp only [DelayInjector.drainTx, Prod.mk.injEq, Option.some.injEq] at h
      exact ⟨h.2.symm, by simp⟩
    | e :: rest =>
      by_cases hd : e.release < now
      · simp only [DelayInjector.drainTx, if_pos hd] at h
        by_cases hb : e.buf = []
        · rw [if_pos hb] at h
          obtain ⟨hq, hall⟩ := ih k rest tr q' h
          refine ⟨hq, ?_⟩
          intro x hx
          rcases List.mem_cons.mp hx with hx | hx
          · exact hx ▸ hd
          · exact hall x hx
        · rw [if_neg hb] at h
          obtain ⟨tr0, res0, hdr⟩ : ∃ tr0 res0,
              DelayInjector.drainTx now grant (k + 1) rest n = (tr0, res0) :=
            ⟨_, _, rfl⟩
          rw [hdr] at h
          simp only [Prod.mk.injEq] at h
          obtain ⟨hq, hall⟩ := ih (k + 1) rest tr0 q' (by rw [hdr, h.2])
          refine ⟨hq, ?_⟩
          intro x hx
          rcases List.mem_cons.mp hx with hx | hx
          · exact hx ▸ hd
          · exact hall x hx
      · rw [drainTx_spin now grant k e rest hd] at h
        simp at h

/-- Every buffer sent to the inner device during a drain (also a drain that
runs out of fuel) is the non-empty buffer of some entry of the starting queue
whose release time is strictly before `now`. -/
theorem drainTx_sends_mem (now : ℤ) (grant : ℕ → Bool) :
    ∀ (fuel k : ℕ) (q : List TxEntry) (b : List ℕ),
      b ∈ InnerEvent.sends (DelayInjector.drainTx now grant k q fuel).1 →
      ∃ e ∈ q, e.buf = b ∧ e.release < now ∧ b ≠ [] := by
  intro fuel
  induction fuel with
  | zero => intro k q b hb; simp [DelayInjector.drainTx] at hb
  | succ n ih =>
    intro k q b hb
    match q with
    | [] => simp [DelayInjector.drainTx] at hb
    | e :: rest =>
      by_cases hd : e.release < now
      · simp only [DelayInjector.drainTx, if_pos hd] at hb
        by_cases hbuf : e.buf = []
        · rw [if_pos hbuf] at hb
          obtain ⟨x, hx, hrest⟩ := ih k rest b hb
          exact ⟨x, List.mem_cons_of_mem e hx, hrest⟩
        · rw [if_neg hbuf] at hb
          obtain ⟨tr0, res0, hdr⟩ : ∃ tr0 res0,
              DelayInjector.drainTx now grant (k + 1) rest n = (tr0, res0) :=
            ⟨_, _, rfl⟩
          rw [hdr] at hb
          by_cases hg : grant k = true
          · simp only [hg, if_pos, sends_transCall, sends_send, List.mem_cons] at hb
            rcases hb with hb | hb
            · exact ⟨e, List.mem_cons_self e rest, hb.symm, hd, hb ▸ hbuf⟩
            · obtain ⟨x, hx, hrest⟩ := ih (k + 1) rest b (by rw [hdr]; exact hb)
              exact ⟨x, List.mem_cons_of_mem e hx, hrest⟩
          · simp only [hg, if_neg, Bool.false_eq_true, sends_transCall] at hb
            obtain ⟨x, hx, hrest⟩ := ih (k + 1) rest b (by rw [hdr]; exact hb)
            exact ⟨x, List.mem_cons_of_mem e hx, hrest⟩
      · rw [drainTx_spin now grant k e rest hd] at hb
        simp at hb

/-- When the inner device grants every requested transmit token and the drain
loop exits, the buffers sent to the inner device are exactly the non-empty
buffers of the queue, in queue order, each once. -/
theorem drainTx_sends_allgrant (now : ℤ) (grant : ℕ → Bool)
    (hg : ∀ k, grant k = true) :
    ∀ (fuel k : ℕ) (q : List TxEntry) (tr : List InnerEvent) (q' : List TxEntry),
      DelayInjector.drainTx now grant k q fuel = (tr, some q') →
      InnerEvent.sends tr =
        (q.filter fun e => decide (e.buf ≠ [])).map TxEntry.buf := by
  intro fuel
  induction fuel with
  | zero =>
    intro k q tr q' h
    simp only [DelayInjector.drainTx, Prod.mk.injEq] at h
    exact absurd h.2 (by simp)
  | succ n ih =>
    intro k q tr q' h
    match q with
    | [] =>
      simp only [DelayInjector.drainTx, Prod.mk.injEq] at h
      rw [← h.1]
      simp
    | e :: rest =>
      by_cases hd : e.release < now
      · simp only [DelayInjector.drainTx, if_pos hd] at h
        by_cases hb : e.buf = []
        · rw [if_pos hb] at h
          rw [ih k rest tr q' h]
          simp [List.filter_cons, hb]
        · rw [if_neg hb] at h
          obtain ⟨tr0, res0, hdr⟩ : ∃ tr0 res0,
              DelayInjector.drainTx now grant (k + 1) rest n = (tr0, res0) :=
            ⟨_, _, rfl⟩
          rw [hdr] at h
          simp only [hg k, if_pos, Prod.mk.injEq] at h
          rw [← h.1]
          have := ih (k + 1) rest tr0 q' (by rw [hdr, h.2])
          simp only [sends_transCall, sends_send, this]
          simp [List.filter_cons, hb]
      · rw [drainTx_spin now grant k e rest hd] at h
        simp at h

/-- When the drain loop exits, the bytes copied to the inner device are
exactly those described by `grantedSends`, for an arbitrary grant oracle: in
queue order, each non-empty buffer's bytes are copied when its request is
granted and dropped when it is refused, and empty buffers contribute
nothing. -/
theorem drainTx_sends_granted (now : ℤ) (grant : ℕ → Bool) :
    ∀ (fuel k : ℕ) (q : List TxEntry) (tr : List InnerEvent) (q' : List TxEntry),
      DelayInjector.drainTx now grant k q fuel = (tr, some q') →
      InnerEvent.sends tr = grantedSends grant k q := by
  intro fuel
  induction fuel with
  | zero =>
    intro k q tr q' h
    simp only [DelayInjector.drainTx, Prod.mk.injEq] at h
    exact absurd h.2 (by simp)
  | succ n ih =>
    intro k q tr q' h
    match q with
    | [] =>
      simp only [DelayInjector.drainTx, Prod.mk.injEq] at h
      rw [← h.1]
      simp [grantedSends]
    | e :: rest =>
      by_cases hd : e.release < now
      · simp only [DelayInjector.drainTx, if_pos hd] at h
        by_cases hb : e.buf = []
        · rw [if_pos hb] at h
          rw [ih k rest tr q' h]
          simp [grantedSends, hb]
        · rw [if_neg hb] at h
          obtain ⟨tr0, res0, hdr⟩ : ∃ tr0 res0,
              DelayInjector.drainTx now grant (k + 1) rest n = (tr0, res0) :=
            ⟨_, _, rfl⟩
          rw [hdr] at h
          simp only [Prod.mk.injEq] at h
          have hs := ih (k + 1) rest tr0 q' (by rw [hdr, h.2])
          rw [← h.1]
          by_cases hg : grant k = true
          · simp [grantedSends, hb, hg, hs]
          · simp [grantedSends, hb, hg, hs]
      · rw [drainTx_spin now grant k e rest hd] at h
        simp at h

/-- When the drain loop exits, it requested exactly one inner transmit token
per entry with a non-empty buffer. -/
theorem drainTx_requests_complete (now : ℤ) (grant : ℕ → Bool) :
    ∀ (fuel k : ℕ) (q : List TxEntry) (tr : List InnerEvent) (q' : List TxEntry),
      DelayInjector.drainTx now grant k q fuel = (tr, some q') →
      InnerEvent.requests tr = (q.filter fun e => decide (e.buf ≠ [])).length := by
  intro fuel
  induction fuel with
  | zero =>
    intro k q tr q' h
    simp only [DelayInjector.drainTx, Prod.mk.injEq] at h
    exact absurd h.2 (by simp)
  | succ n ih =>
    intro k q tr q' h
    match q with
    | [] =>
      simp only [DelayInjector.drainTx, Prod.mk.injEq] at h
      rw [← h.1]
      simp
    | e :: rest =>
      by_cases hd : e.release < now
      · simp only [DelayInjector.drainTx, if_pos hd] at h
        by_cases hb : e.buf = []
        · rw [if_pos hb] at h
          rw [ih k rest tr q' h]
          simp [List.filter_cons, hb]
        · rw [if_neg hb] at h
          obtain ⟨tr0, res0, hdr⟩ : ∃ tr0 res0,
              DelayInjector.drainTx now grant (k + 1) rest n = (tr0, res0) :=
            ⟨_, _, rfl⟩
          rw [hdr] at h
          simp only [Prod.mk.injEq] at h
          have := ih (k + 1) rest tr0 q' (by rw [hdr, h.2])
          rw [← h.1]
          by_cases hg : grant k = true <;>
            simp [hg, this, List.filter_cons, hb]
      · rw [drainTx_spin now grant k e rest hd] at h
        simp at h

/-- For any fuel (also when the drain runs out of fuel or spins on a not-due
front entry), the number of inner transmit calls requested is at most the
number of queue entries whose release time is strictly before `now`. -/
theorem drainTx_requests_le (now : ℤ) (grant : ℕ → Bool) :
    ∀ (fuel k : ℕ) (q : List TxEntry),
      InnerEvent.requests (DelayInjector.drainTx now grant k q fuel).1 ≤
        (q.filter fun e => decide (e.release < now)).length := by
  intro fuel
  induction fuel with
  | zero => intro k q; simp [DelayInjector.drainTx]
  | succ n ih =>
    intro k q
    match q with
    | [] => simp [DelayInjector.drainTx]
    | e :: rest =>
      by_cases hd : e.release < now
      · simp only [DelayInjector.drainTx, if_pos hd]
        by_cases hb : e.buf = []
        · rw [if_pos hb]
          calc InnerEvent.requests (DelayInjector.drainTx now grant k rest n).1 ≤
              (rest.filter fun e => decide (e.release < now)).length := ih k rest
            _ ≤ ((e :: rest).filter fun e => decide (e.release < now)).length := by
              simp [List.filter_cons, hd]
        · rw [if_neg hb]
          obtain ⟨tr0, res0, hdr⟩ : ∃ tr0 res0,
              DelayInjector.drainTx now grant (k + 1) rest n = (tr0, res0) :=
            ⟨_, _, rfl⟩
          have hle : InnerEvent.requests tr0 ≤
              (rest.filter fun e => decide (e.release < now)).length := by
            have := ih (k + 1) rest
            rw [hdr] at this
            exact this
          rw [hdr]
          by_cases hg : grant k = true <;>
            simp [hg, List.filter_cons, hd] <;> omega
      · rw [drainTx_spin now grant k e rest hd]
        simp

/-- The drain loop never calls `inner.receive`. -/
theorem drainTx_recvCalls (now : ℤ) (grant : ℕ → Bool) :
    ∀ (fuel k : ℕ) (q : List TxEntry),
      InnerEvent.recvCalls (DelayInjector.drainTx now grant k q fuel).1 = 0 := by
  intro fuel
  induction fuel with
  | zero => intro k q; simp [DelayInjector.drainTx]
  | succ n ih =>
    intro k q
    match q with
    | [] => simp [DelayInjector.drainTx]
    | e :: rest =>
      by_cases hd : e.release < now
      · simp only [DelayInjector.drainTx, if_pos hd]
        by_cases hb : e.buf = []
        · rw [if_pos hb]; exact ih k rest
        · rw [if_neg hb]
          obtain ⟨tr0, res0, hdr⟩ : ∃ tr0 res0,
              DelayInjector.drainTx now grant (k + 1) rest n = (tr0, res0) :=
            ⟨_, _, rfl⟩
          have h0 : InnerEvent.recvCalls tr0 = 0 := by
            have := ih (k + 1) rest
            rw [hdr] at this
            exact this
          rw [hdr]
          by_cases hg : grant k = true <;> simp [hg, h0]
      · rw [drainTx_spin now grant k e rest hd]
        simp

end DrainLemmas

section PollLemmas

@[simp]
theorem pollRx_none (s : DelayInjector) (now : ℤ) :
    DelayInjector.pollRx s now none = s := rfl

@[simp]
theorem pollRx_some (s : DelayInjector) (now : ℤ) (b : List ℕ) (m : ℕ) :
    DelayInjector.pollRx s now (some (b, m)) =
      { s with rx_queue := s.rx_queue ++ [⟨b, now + s.delay, m⟩] } := rfl

@[simp]
theorem pollRx_tx_queue (s : DelayInjector) (now : ℤ) (rxIn : Option (List ℕ × ℕ)) :
    (DelayInjector.pollRx s now rxIn).tx_queue = s.tx_queue := by
  cases rxIn with
  | none => rfl
  | some p => cases p; rfl

@[simp]
theorem pollRx_delay (s : DelayInjector) (now : ℤ) (rxIn : Option (List ℕ × ℕ)) :
    (DelayInjector.pollRx s now rxIn).delay = s.delay := by
  cases rxIn with
  | none => rfl
  | some p => cases p; rfl

theorem pollRx_rx_len (s : DelayInjector) (now : ℤ) (rxIn : Option (List ℕ × ℕ)) :
    (DelayInjector.pollRx s now rxIn).rx_queue.length ≤ s.rx_queue.length + 1 := by
  cases rxIn with
  | none => exact Nat.le_succ _
  | some p => cases p; simp [DelayInjector.pollRx]

/-- Unfolding `poll` into its receive step and its drain loop. -/
theorem poll_eq_drain (s : DelayInjector) (now : ℤ) (rxIn : Option (List ℕ × ℕ))
    (grant : ℕ → Bool) (fuel : ℕ) :
    DelayInjector.poll s now rxIn grant fuel =
      (InnerEvent.recvCall rxIn ::
         (DelayInjector.drainTx now grant 0
           (DelayInjector.pollRx s now rxIn).tx_queue fuel).1,
       (DelayInjector.drainTx now grant 0
           (DelayInjector.pollRx s now rxIn).tx_queue fuel).2.map
         (fun q => { DelayInjector.pollRx s now rxIn with tx_queue := q })) := by
  obtain ⟨tr0, res0, hdr⟩ : ∃ tr0 res0,
      DelayInjector.drainTx now grant 0 s.tx_queue fuel = (tr0, res0) :=
    ⟨_, _, rfl⟩
  unfold DelayInjector.poll
  cases res0 with
  | none => simp [hdr]
  | some q => simp [hdr]

end PollLemmas

/-- C4: `capabilities()` returns the inner capability set with
`max_transmission_unit` equal to `min(inner MTU, 1536)` and every other field
unchanged, for every inner MTU value; it is a pure function of the inner
capability set (it takes `&self` in the source), so it mutates no state. -/
theorem capabilities_min (c : DeviceCapabilities) :
    (DelayInjector.capabilities c).max_transmission_unit =
      min c.max_transmission_unit MTU ∧
    (DelayInjector.capabilities c).medium = c.medium ∧
    (DelayInjector.capabilities c).max_burst_size = c.max_burst_size ∧
    (DelayInjector.capabilities c).checksum = c.checksum := by
  unfold DelayInjector.capabilities
  split
  · simp_all
    omega
  · simp_all

/-- C5: `transmit(now)` never fails: in every state it returns `Some` token
bound to the new back entry, appends exactly one outbound entry whose buffer
is empty and whose release time equals `now` (no delay added), and changes
nothing else. -/
theorem transmit_total (s : DelayInjector) (now : ℤ) :
    DelayInjector.transmit s now =
      (some s.tx_queue.length,
       { s with tx_queue := s.tx_queue ++ [⟨[], now⟩] },
       []) := by
  rfl

/-- C1 (defect in the source): the claim says the drain loop of `poll` stops
as soon as the front outbound entry's release time is not strictly before
`now`, and that `poll` then returns.  In the source the `while let` loop has
no `break` for that case, so it re-examines the same front entry forever.
Concretely: after `transmit(10)` the outbound queue holds one entry with
release time 10, and `poll(10)` never returns — the fuelled drain yields no
final state for any amount of fuel. -/
theorem poll_spins_on_undue_front (fuel : ℕ) :
    (DelayInjector.poll ⟨0, [], [⟨[], 10⟩]⟩ 10 none (fun _ => true) fuel).2 =
      none := by
  have h := drainTx_spin 10 (fun _ => true) 0 ⟨[], 10⟩ [] (by simp) fuel
  rw [poll_eq_drain]
  simp [h]

/-- C2: a packet the inner device yielded at poll time `t` is queued with
release time `t + delay`; `receive(now)` never returns a packet whose release
time is after `now` (in particular never before `t + delay`), and on the first
call at which the packet is the front entry and `now` has reached its release
time it is returned, popped, with its original bytes and metadata, paired with
a transmit token bound to a fresh outbound entry. -/
theorem receive_delay_gate (s : DelayInjector) (t now : ℤ) (b : List ℕ) (m : ℕ)
    (grant : ℕ → Bool) (fuel : ℕ) :
    (∀ s', (DelayInjector.poll s t (some (b, m)) grant fuel).2 = some s' →
        s'.rx_queue = s.rx_queue ++ [⟨b, t + s.delay, m⟩]) ∧
    (∀ e rest, s.rx_queue = e :: rest →
        (now < e.release → DelayInjector.receive s now = (none, s, [])) ∧
        (e.release ≤ now →
          DelayInjector.receive s now =
            (some (e.buf, e.meta, s.tx_queue.length),
             { s with rx_queue := rest, tx_queue := s.tx_queue ++ [⟨[], now⟩] },
             []))) ∧
    (∀ b0 m0 tok s2 tr,
        DelayInjector.receive s now = (some (b0, m0, tok), s2, tr) →
        ∃ e rest, s.rx_queue = e :: rest ∧ e.release ≤ now ∧
          b0 = e.buf ∧ m0 = e.meta ∧ s2.rx_queue = rest) := by
  refine ⟨?_, ?_, ?_⟩
  · intro s' h
    rw [poll_eq_drain] at h
    obtain ⟨tr0, res0, hdr⟩ : ∃ tr0 res0,
        DelayInjector.drainTx t grant 0 s.tx_queue fuel = (tr0, res0) :=
      ⟨_, _, rfl⟩
    simp only [pollRx_tx_queue, hdr] at h
    cases res0 with
    | none => simp at h
    | some q =>
      simp only [Option.map_some', Option.some.injEq] at h
      rw [← h]
      simp [DelayInjector.pollRx]
  · intro e rest hq
    constructor
    · intro hlt
      simp only [DelayInjector.receive, hq]
      rw [if_pos hlt]
    · intro hle
      simp only [DelayInjector.receive, hq]
      rw [if_neg (by omega)]
      simp [DelayInjector.transmit]
  · intro b0 m0 tok s2 tr h
    match hq : s.rx_queue with
    | [] => simp [DelayInjector.receive, hq] at h
    | e :: rest =>
      simp only [DelayInjector.receive, hq] at h
      by_cases hlt : e.release > now
      · rw [if_pos hlt] at h
        simp at h
      · rw [if_neg hlt] at h
        simp only [DelayInjector.transmit, Prod.mk.injEq, Option.some.injEq] at h
        obtain ⟨⟨hb, hm, -⟩, hs2, -⟩ := h
        exact ⟨e, rest, rfl, by omega, hb.symm, hm.symm, by rw [← hs2]⟩

/-- Witness for C2: with `delay = 2`, a queued packet `[7]` (metadata 9) with
release time 5 at the front is returned by `receive(5)`, popped, and paired
with a fresh empty outbound entry. -/
theorem receive_delay_gate_witness :
    DelayInjector.receive ⟨2, [⟨[7], 5, 9⟩], []⟩ 5 =
      (some ([7], 9, 0), ⟨2, [], [⟨[], 5⟩]⟩, []) := by
  have h := (receive_delay_gate ⟨2, [⟨[7], 5, 9⟩], []⟩ 0 5 [] 0
      (fun _ => true) 0).2.1 ⟨[7], 5, 9⟩ [] rfl
  exact h.2 (by decide)

/-- C3 under the claim's wording fails: `poll` pops a due non-empty outbound
entry and requests a transmit slot, but when the inner device grants no slot
the bytes are not copied anywhere.  Concretely: with one due entry `[3, 4]`
and an inner device that refuses the slot, `poll(2)` empties the queue while
the trace carries no byte copy. -/
theorem drain_refusal_no_copy_cex :
    (DelayInjector.poll ⟨0, [], [⟨[3, 4], 0⟩]⟩ 2 none (fun _ => false) 3).2 =
        some ⟨0, [], []⟩ ∧
    InnerEvent.sends
      (DelayInjector.poll ⟨0, [], [⟨[3, 4], 0⟩]⟩ 2 none (fun _ => false) 3).1 =
        [] := by
  decide

/-- C3 (amended): when the drain loop of `poll(now)` exits, every entry it
popped was strictly due and was handled exactly once — one inner transmit slot
is requested per non-empty buffer (none for empty buffers, which are
discarded), and under an arbitrary grant/refuse pattern of the inner device
the bytes reaching the inner device are exactly `grantedSends`: in queue
order, each non-empty buffer's bytes are copied once into its slot when that
slot is granted, and dropped without a copy when it is refused.  Moreover
(for any fuel, also for runs that never exit) every buffer sent to the inner
device comes from an entry whose release time is strictly before `now`: an
entry with release time exactly `now` is never forwarded. -/
theorem drain_pops_due_entries_once (now : ℤ) (grant : ℕ → Bool)
    (q : List TxEntry) (fuel : ℕ) :
    (∀ tr q', DelayInjector.drainTx now grant 0 q fuel = (tr, some q') →
      q' = [] ∧ (∀ e ∈ q, e.release < now) ∧
      InnerEvent.requests tr = (q.filter fun e => decide (e.buf ≠ [])).length ∧
      InnerEvent.sends tr = grantedSends grant 0 q) ∧
    (∀ b ∈ InnerEvent.sends (DelayInjector.drainTx now grant 0 q fuel).1,
      ∃ e ∈ q, e.buf = b ∧ e.release < now ∧ b ≠ []) := by
  constructor
  · intro tr q' h
    obtain ⟨h1, h2⟩ := drainTx_complete now grant fuel 0 q tr q' h
    exact ⟨h1, h2, drainTx_requests_complete now grant fuel 0 q tr q' h,
      drainTx_sends_granted now grant fuel 0 q tr q' h⟩
  · intro b hb
    exact drainTx_sends_mem now grant fuel 0 q b hb

/-- Witness for C3 (amended): draining `[([1], 0), (vec![], 0), ([2], 1)]` at
`now = 2` with a mixed inner device that grants the first request and refuses
the second makes two requests and sends exactly `[1]` once — `[2]`'s slot was
refused, matching `grantedSends`. -/
theorem drain_pops_due_entries_once_witness :
    InnerEvent.requests
      [InnerEvent.transCall true, InnerEvent.send [1],
       InnerEvent.transCall false] =
      (([⟨[1], 0⟩, ⟨[], 0⟩, ⟨[2], 1⟩] : List TxEntry).filter
        fun e => decide (e.buf ≠ [])).length ∧
    InnerEvent.sends
      [InnerEvent.transCall true, InnerEvent.send [1],
       InnerEvent.transCall false] =
      grantedSends (fun k => k == 0) 0 [⟨[1], 0⟩, ⟨[], 0⟩, ⟨[2], 1⟩] := by
  have h := (drain_pops_due_entries_once 2 (fun k => k == 0)
      [⟨[1], 0⟩, ⟨[], 0⟩, ⟨[2], 1⟩] 5).1
      [InnerEvent.transCall true, InnerEvent.send [1],
       InnerEvent.transCall false] [] (by decide)
  exact ⟨h.2.2.1, h.2.2.2⟩

/-- C7 under the claim's wording fails: a due, non-empty outbound buffer can
be discarded by `poll` without its bytes reaching the inner device's transmit
path — it suffices that the inner device returns no transmit token.
Concretely: entry `[9]` due at `poll(5)` disappears from the queue while the
trace records a refused request and no byte copy; `into_inner` was never
involved. -/
theorem poll_refusal_loses_buffer_cex :
    (DelayInjector.poll ⟨1, [], [⟨[9], 3⟩]⟩ 5 none (fun _ => false) 4).2 =
        some ⟨1, [], []⟩ ∧
    InnerEvent.sends
      (DelayInjector.poll ⟨1, [], [⟨[9], 3⟩]⟩ 5 none (fun _ => false) 4).1 =
        [] := by
  decide

/-- C7 (amended): no operation of the injector raises a fault (each is a total
function returning an optional token); `into_inner` returns the inner device
and drops both queues; and under an arbitrary grant/refuse pattern of the
inner device, the bytes a completed `poll` drain delivers to the inner
device's transmit path are exactly `grantedSends` — every due non-empty
buffer whose requested slot is granted is delivered, so silent loss of
buffered bytes happens only on `into_inner` or at a refused transmit slot
(in particular, with every slot granted, every due non-empty buffer reaches
the inner device). -/
theorem poll_loss_only_on_refusal {ι : Type} (i : ι) (s : DelayInjector)
    (now : ℤ) (grant : ℕ → Bool) (fuel : ℕ) (tr : List InnerEvent)
    (q' : List TxEntry)
    (h : DelayInjector.drainTx now grant 0 s.tx_queue fuel = (tr, some q')) :
    DelayInjector.into_inner (i, s) = i ∧
    InnerEvent.sends tr = grantedSends grant 0 s.tx_queue ∧
    ((∀ k, grant k = true) →
      ∀ e ∈ s.tx_queue, e.buf ≠ [] → e.buf ∈ InnerEvent.sends tr) := by
  refine ⟨rfl, drainTx_sends_granted now grant fuel 0 s.tx_queue tr q' h, ?_⟩
  intro hg e he hne
  rw [drainTx_sends_allgrant now grant hg fuel 0 s.tx_queue tr q' h]
  exact List.mem_map.mpr ⟨e, List.mem_filter.mpr ⟨he, decide_eq_true hne⟩, rfl⟩

/-- Witness for C7 (amended): with a mixed inner device that refuses the
first slot and grants the second, a completed `poll(3)` drain of the due
entries `[4]` and `[6]` delivers exactly `[6]` (`[4]`'s slot was refused), as
`grantedSends` prescribes, and `into_inner` returns the inner device. -/
theorem poll_loss_only_on_refusal_witness :
    DelayInjector.into_inner
      ((0 : ℕ), (⟨0, [], [⟨[4], 0⟩, ⟨[6], 1⟩]⟩ : DelayInjector)) = 0 ∧
    InnerEvent.sends
      [InnerEvent.transCall false, InnerEvent.transCall true,
       InnerEvent.send [6]] =
      grantedSends (fun k => k == 1) 0 [⟨[4], 0⟩, ⟨[6], 1⟩] := by
  have h := poll_loss_only_on_refusal 0 ⟨0, [], [⟨[4], 0⟩, ⟨[6], 1⟩]⟩ 3
      (fun k => k == 1) 5
      [InnerEvent.transCall false, InnerEvent.transCall true,
       InnerEvent.send [6]] [] (by decide)
  exact ⟨h.1, h.2.1⟩

/-- C9: each `poll(now)` call performs exactly one inner receive (so the
inbound queue grows by at most one entry), and the number of inner transmit
requests it makes is at most the number of outbound entries whose release
time is strictly before `now` — for any fuel, so also for drain runs that
never exit. -/
theorem poll_inner_call_bounds (s : DelayInjector) (now : ℤ)
    (rxIn : Option (List ℕ × ℕ)) (grant : ℕ → Bool) (fuel : ℕ) :
    InnerEvent.recvCalls (DelayInjector.poll s now rxIn grant fuel).1 = 1 ∧
    InnerEvent.requests (DelayInjector.poll s now rxIn grant fuel).1 ≤
      (s.tx_queue.filter fun e => decide (e.release < now)).length ∧
    ∀ s', (DelayInjector.poll s now rxIn grant fuel).2 = some s' →
      s'.rx_queue.length ≤ s.rx_queue.length + 1 := by
  rw [poll_eq_drain]
  refine ⟨?_, ?_, ?_⟩
  · simp [drainTx_recvCalls now grant fuel 0]
  · simpa using drainTx_requests_le now grant fuel 0 s.tx_queue
  · intro s' h
    simp only [Option.map_eq_some'] at h
    obtain ⟨q, -, hq⟩ := h
    rw [← hq]
    exact pollRx_rx_len s now rxIn

/-- Witness for C9: a `poll(0)` on an empty injector makes one inner receive
call, no transmit request, and leaves the inbound queue within the bound. -/
theorem poll_inner_call_bounds_witness :
    InnerEvent.recvCalls
      (DelayInjector.poll ⟨0, [], []⟩ 0 none (fun _ => true) 1).1 = 1 ∧
    (⟨0, [], []⟩ : DelayInjector).rx_queue.length ≤
      (⟨0, [], []⟩ : DelayInjector).rx_queue.length + 1 := by
  have h := poll_inner_call_bounds ⟨0, [], []⟩ 0 none (fun _ => true) 1
  exact ⟨h.1, h.2.2 ⟨0, [], []⟩ (by decide)⟩

/-- C10: the injector's `receive` and `transmit` make no inner-device call at
all (their inner-event traces are empty; `capabilities` is a pure function of
the inner capability set), and a successful `receive` also appends exactly one
empty outbound entry — the paired transmit token — without inner I/O. -/
theorem receive_transmit_no_inner_io (s : DelayInjector) (now : ℤ) :
    (DelayInjector.receive s now).2.2 = [] ∧
    (DelayInjector.transmit s now).2.2 = [] ∧
    ∀ r, (DelayInjector.receive s now).1 = some r →
      (DelayInjector.receive s now).2.1.tx_queue =
        s.tx_queue ++ [⟨[], now⟩] := by
  refine ⟨?_, rfl, ?_⟩
  · match hq : s.rx_queue with
    | [] => simp [DelayInjector.receive, hq]
    | e :: rest =>
      simp only [DelayInjector.receive, hq]
      split
      · rfl
      · simp [DelayInjector.transmit]
  · intro r hr
    match hq : s.rx_queue with
    | [] => simp [DelayInjector.receive, hq] at hr
    | e :: rest =>
      simp only [DelayInjector.receive, hq] at hr ⊢
      by_cases hlt : e.release > now
      · rw [if_pos hlt] at hr
        simp at hr
      · rw [if_neg hlt]
        simp [DelayInjector.transmit]

/-- Witness for C10: a concrete successful `receive(3)` appends exactly one
empty outbound entry with release time 3 and produces no inner event. -/
theorem receive_transmit_no_inner_io_witness :
    (DelayInjector.receive ⟨2, [⟨[5], 0, 7⟩], []⟩ 3).2.2 = [] ∧
    (DelayInjector.receive ⟨2, [⟨[5], 0, 7⟩], []⟩ 3).2.1.tx_queue =
      ([] : List TxEntry) ++ [⟨[], 3⟩] := by
  have h := receive_transmit_no_inner_io ⟨2, [⟨[5], 0, 7⟩], []⟩ 3
  exact ⟨h.1, h.2.2 ([5], 7, 0) (by decide)⟩

section GhostLemmas

@[simp]
theorem gpollRx_none (g : GState) (now : ℤ) :
    gpollRx g now none = g := rfl

@[simp]
theorem gpollRx_some (g : GState) (now : ℤ) (b : List ℕ) (m : ℕ) :
    gpollRx g now (some (b, m)) =
      { g with rxq := g.rxq ++ [⟨b, now + g.delay, m, now, g.rxNext⟩],
               rxNext := g.rxNext + 1 } := rfl

@[simp]
theorem gpollRx_txq (g : GState) (now : ℤ) (rxIn : Option (List ℕ × ℕ)) :
    (gpollRx g now rxIn).txq = g.txq := by
  cases rxIn with
  | none => rfl
  | some p => cases p; rfl

@[simp]
theorem gpollRx_txNext (g : GState) (now : ℤ) (rxIn : Option (List ℕ × ℕ)) :
    (gpollRx g now rxIn).txNext = g.txNext := by
  cases rxIn with
  | none => rfl
  | some p => cases p; rfl

@[simp]
theorem gpollRx_sentOut (g : GState) (now : ℤ) (rxIn : Option (List ℕ × ℕ)) :
    (gpollRx g now rxIn).sentOut = g.sentOut := by
  cases rxIn with
  | none => rfl
  | some p => cases p; rfl

@[simp]
theorem gpollRx_delay (g : GState) (now : ℤ) (rxIn : Option (List ℕ × ℕ)) :
    (gpollRx g now rxIn).delay = g.delay := by
  cases rxIn with
  | none => rfl
  | some p => cases p; rfl

/-- Unfolding `gpoll` into its receive step and its drain loop. -/
theorem gpoll_eq_drain (g : GState) (now : ℤ) (rxIn : Option (List ℕ × ℕ))
    (grant : ℕ → Bool) (fuel : ℕ) :
    gpoll g now rxIn grant fuel =
      (gdrain now grant 0 (gpollRx g now rxIn).txq fuel).2.map
        (fun q =>
          { gpollRx g now rxIn with
            txq := q,
            sentOut := (gpollRx g now rxIn).sentOut ++
              (gdrain now grant 0 (gpollRx g now rxIn).txq fuel).1 }) := by
  obtain ⟨out0, res0, hdr⟩ : ∃ out0 res0,
      gdrain now grant 0 g.txq fuel = (out0, res0) :=
    ⟨_, _, rfl⟩
  unfold gpoll
  cases res0 with
  | none => simp [hdr]
  | some q => simp [hdr]

/-- A ghost drain run that exits did so with an empty queue. -/
theorem gdrain_complete (now : ℤ) (grant : ℕ → Bool) :
    ∀ (fuel k : ℕ) (q q' : List GTx),
      (gdrain now grant k q fuel).2 = some q' → q' = [] := by
  intro fuel
  induction fuel with
  | zero => intro k q q' h; simp [gdrain] at h
  | succ n ih =>
    intro k q q' h
    match q with
    | [] =>
      simp only [gdrain, Option.some.injEq] at h
      exact h.symm
    | e :: rest =>
      by_cases hd : e.release < now
      · simp only [gdrain, if_pos hd] at h
        by_cases hb : e.buf = []
        · rw [if_pos hb] at h
          exact ih k rest q' h
        · rw [if_neg hb] at h
          obtain ⟨out0, res0, hdr⟩ : ∃ out0 res0,
              gdrain now grant (k + 1) rest n = (out0, res0) := ⟨_, _, rfl⟩
          rw [hdr] at h
          simp only at h
          exact ih (k + 1) rest q' (by rw [hdr]; exact h)
      · simp only [gdrain, if_neg hd] at h
        exact ih k (e :: rest) q' h

/-- The `seq`s a ghost drain sends to the inner device form a sublist of the
queue's `seq`s, in queue order — for any fuel. -/
theorem gdrain_sublist (now : ℤ) (grant : ℕ → Bool) :
    ∀ (fuel k : ℕ) (q : List GTx),
      List.Sublist (gdrain now grant k q fuel).1 (q.map GTx.seq) := by
  intro fuel
  induction fuel with
  | zero => intro k q; simp [gdrain]
  | succ n ih =>
    intro k q
    match q with
    | [] => simp [gdrain]
    | e :: rest =>
      by_cases hd : e.release < now
      · simp only [gdrain, if_pos hd]
        by_cases hb : e.buf = []
        · rw [if_pos hb]
          exact (ih k rest).cons e.seq
        · rw [if_neg hb]
          obtain ⟨out0, res0, hdr⟩ : ∃ out0 res0,
              gdrain now grant (k + 1) rest n = (out0, res0) := ⟨_, _, rfl⟩
          have hsub : List.Sublist out0 (rest.map GTx.seq) := by
            have := ih (k + 1) rest
            rw [hdr] at this
            exact this
          rw [hdr]
          by_cases hg : grant k = true
          · simp only [hg, if_pos, List.map_cons]
            exact hsub.cons₂ e.seq
          · simp only [hg, Bool.false_eq_true, if_neg, List.map_cons]
            exact hsub.cons e.seq
      · simp only [gdrain, if_neg hd]
        exact ih k (e :: rest)

/-- Appending an element strictly above every element of a sorted list keeps
it sorted. -/
theorem sorted_snoc {l : List ℕ} {n : ℕ}
    (hs : l.Sorted (· < ·)) (hb : ∀ i ∈ l, i < n) :
    (l ++ [n]).Sorted (· < ·) := by
  refine List.pairwise_append.mpr ⟨hs, List.pairwise_singleton _ _, ?_⟩
  intro a ha b hbm
  rw [List.mem_singleton] at hbm
  exact hbm ▸ hb a ha

/-- `SeqInv` is preserved by `gtransmit`. -/
theorem seqInv_gtransmit (g : GState) (now : ℤ) (bytes : List ℕ)
    (h : SeqInv g) : SeqInv (gtransmit g now bytes) := by
  obtain ⟨h1, h2, h3, h4⟩ := h
  refine ⟨h1, ?_, h3, ?_⟩
  · simp only [gtransmit, List.map_append, List.map_cons, List.map_nil,
      ← List.append_assoc]
    exact sorted_snoc h2 h4
  · simp only [gtransmit, List.map_append, List.map_cons, List.map_nil,
      ← List.append_assoc]
    intro i hi
    rcases List.mem_append.mp hi with hi | hi
    · exact Nat.lt_succ_of_lt (h4 i hi)
    · rw [List.mem_singleton] at hi
      exact hi ▸ Nat.lt_succ_self _

/-- `SeqInv` is preserved by `greceive`. -/
theorem seqInv_greceive (g : GState) (now : ℤ) (bytes : List ℕ)
    (h : SeqInv g) : SeqInv (greceive g now bytes).2 := by
  obtain ⟨h1, h2, h3, h4⟩ := h
  match hq : g.rxq with
  | [] =>
    simp only [greceive, hq]
    exact ⟨h1, h2, h3, h4⟩
  | e :: rest =>
    simp only [greceive, hq]
    split
    · exact ⟨h1, h2, h3, h4⟩
    · rw [hq] at h1 h3
      refine ⟨?_, ?_, ?_, ?_⟩
      · simpa [List.append_assoc] using h1
      · simp only [List.map_append, List.map_cons, List.map_nil,
          ← List.append_assoc]
        exact sorted_snoc h2 h4
      · intro i hi
        refine h3 i ?_
        simp only [List.append_assoc, List.singleton_append, List.map_cons] at hi ⊢
        exact hi
      · simp only [List.map_append, List.map_cons, List.map_nil,
          ← List.append_assoc]
        intro i hi
        rcases List.mem_append.mp hi with hi | hi
        · exact Nat.lt_succ_of_lt (h4 i hi)
        · rw [List.mem_singleton] at hi
          exact hi ▸ Nat.lt_succ_self _

/-- `SeqInv` is preserved by the receive step of `gpoll`. -/
theorem seqInv_gpollRx (g : GState) (now : ℤ) (rxIn : Option (List ℕ × ℕ))
    (h : SeqInv g) : SeqInv (gpollRx g now rxIn) := by
  obtain ⟨h1, h2, h3, h4⟩ := h
  cases rxIn with
  | none => exact ⟨h1, h2, h3, h4⟩
  | some p =>
    cases p with
    | mk b m =>
      refine ⟨?_, h2, ?_, h4⟩
      · simp only [gpollRx_some, List.map_append, List.map_cons, List.map_nil,
          ← List.append_assoc]
        exact sorted_snoc h1 h3
      · simp only [gpollRx_some, List.map_append, List.map_cons, List.map_nil,
          ← List.append_assoc]
        intro i hi
        rcases List.mem_append.mp hi with hi | hi
        · exact Nat.lt_succ_of_lt (h3 i hi)
        · rw [List.mem_singleton] at hi
          exact hi ▸ Nat.lt_succ_self _

/-- `SeqInv` is preserved by a completed `gpoll`. -/
theorem seqInv_gpoll (g g' : GState) (now : ℤ) (rxIn : Option (List ℕ × ℕ))
    (grant : ℕ → Bool) (fuel : ℕ)
    (h : SeqInv g) (hp : gpoll g now rxIn grant fuel = some g') : SeqInv g' := by
  obtain ⟨k1, k2, k3, k4⟩ := seqInv_gpollRx g now rxIn h
  rw [gpoll_eq_drain] at hp
  obtain ⟨q, hq2, hg'⟩ := Option.map_eq_some'.mp hp
  have hqnil : q = [] := gdrain_complete now grant fuel 0 _ q hq2
  subst hqnil
  rw [← hg']
  have hsub : List.Sublist
      ((gpollRx g now rxIn).sentOut ++
        (gdrain now grant 0 (gpollRx g now rxIn).txq fuel).1)
      ((gpollRx g now rxIn).sentOut ++ (gpollRx g now rxIn).txq.map GTx.seq) :=
    (gdrain_sublist now grant fuel 0 _).append_left _
  refine ⟨k1, ?_, k3, ?_⟩
  · simpa using k2.sublist hsub
  · simp only [List.map_nil, List.append_nil]
    intro i hi
    exact k4 i (hsub.subset hi)

/-- Every reachable ghost state satisfies `SeqInv`. -/
theorem seqInv_reach (d : ℤ) (g : GState) (h : GReach d g) : SeqInv g := by
  induction h with
  | base => exact ⟨List.sorted_nil, List.sorted_nil, by simp, by simp⟩
  | poll now rxIn grant fuel hg hp ih => exact seqInv_gpoll _ _ now rxIn grant fuel ih hp
  | recv now bytes hg ih => exact seqInv_greceive _ now bytes ih
  | trans now bytes hg ih => exact seqInv_gtransmit _ now bytes ih

end GhostLemmas

/-- C6 under the claim's wording fails: outbound entries are stamped with
release instant = enqueue time, with no delay added.  Concretely: with
construction delay 5, the reachable state after one `transmit(10)` holds an
outbound entry with release instant 10 and enqueue time 10, and 10 ≠ 10 + 5. -/
theorem tx_release_no_delay_cex :
    GReach 5 ghostAfterTransmit ∧
    ghostAfterTransmit.txq = [⟨[], 10, 10, 0⟩] ∧
    ¬ ∀ e ∈ ghostAfterTransmit.txq,
        e.release = e.enq + ghostAfterTransmit.delay :=
  ⟨GReach.trans 10 [] GReach.base, by decide, by decide⟩

/-- C6 (amended): in every reachable state, every inbound queue entry's
release instant equals its enqueue time plus the fixed delay supplied at
construction, every outbound queue entry's release instant equals its enqueue
time (no delay added), and the delay value never changes during the device's
lifetime. -/
theorem release_time_invariant (d : ℤ) (g : GState) (h : GReach d g) :
    g.delay = d ∧
    (∀ e ∈ g.rxq, e.release = e.enq + d) ∧
    (∀ e ∈ g.txq, e.release = e.enq) := by
  induction h with
  | base => exact ⟨rfl, by simp, by simp⟩
  | @poll g0 g' now rxIn grant fuel hg hp ih =>
    obtain ⟨hd, hrx, htx⟩ := ih
    rw [gpoll_eq_drain] at hp
    obtain ⟨q, hq2, hg'⟩ := Option.map_eq_some'.mp hp
    have hqnil : q = [] := gdrain_complete now grant fuel 0 _ q hq2
    subst hqnil
    rw [← hg']
    refine ⟨by simp [hd], ?_, by simp⟩
    cases rxIn with
    | none => simpa using hrx
    | some p =>
      cases p with
      | mk b m =>
        simp only [gpollRx_some]
        intro e he
        rcases List.mem_append.mp he with he | he
        · exact hrx e he
        · rw [List.mem_singleton] at he
          subst he
          simp [hd]
  | @recv g0 now bytes hg ih =>
    obtain ⟨hd, hrx, htx⟩ := ih
    match hq : g0.rxq with
    | [] =>
      simp only [greceive, hq]
      exact ⟨hd, by simp, htx⟩
    | e :: rest =>
      simp only [greceive, hq]
      split
      · exact ⟨hd, hq ▸ hrx, htx⟩
      · refine ⟨hd, ?_, ?_⟩
        · intro x hx
          exact hrx x (by rw [hq]; exact List.mem_cons_of_mem e hx)
        · intro x hx
          rcases List.mem_append.mp hx with hx | hx
          · exact htx x hx
          · rw [List.mem_singleton] at hx
            subst hx
            rfl
  | @trans g0 now bytes hg ih =>
    obtain ⟨hd, hrx, htx⟩ := ih
    refine ⟨hd, hrx, ?_⟩
    intro x hx
    simp only [gtransmit] at hx
    rcases List.mem_append.mp hx with hx | hx
    · exact htx x hx
    · rw [List.mem_singleton] at hx
      subst hx
      rfl

/-- Witness for C6 (amended): in the reachable state after `transmit(10)` on
a device built with delay 5, the delay is still 5 and the outbound entry's
release instant equals its enqueue time. -/
theorem release_time_invariant_witness :
    ghostAfterTransmit.delay = 5 ∧
    GTx.release ⟨[], 10, 10, 0⟩ = GTx.enq ⟨[], 10, 10, 0⟩ :=
  ⟨(release_time_invariant 5 ghostAfterTransmit
      (GReach.trans 10 [] GReach.base)).1,
   (release_time_invariant 5 ghostAfterTransmit
      (GReach.trans 10 [] GReach.base)).2.2 ⟨[], 10, 10, 0⟩ (by decide)⟩

/-- C8: FIFO ordering over every interleaving of `poll`, `receive` and
`transmit` calls: in every reachable state, the packets returned by `receive`
so far carry strictly increasing inner-yield sequence numbers (they come back
in the order the inner device yielded them), and the outbound buffers that
reached the inner device's transmit path carry strictly increasing
transmit-call sequence numbers (they arrive in the order the transmit tokens
were created). -/
theorem fifo_order (d : ℤ) (g : GState) (h : GReach d g) :
    g.recvOut.Sorted (· < ·) ∧ g.sentOut.Sorted (· < ·) := by
  obtain ⟨h1, h2, -, -⟩ := seqInv_reach d g h
  exact ⟨h1.sublist (List.sublist_append_left _ _),
         h2.sublist (List.sublist_append_left _ _)⟩

/-- Witness for C8: the state reached by `transmit(0)` (filled with `[2]`)
followed by a completed `poll(1)` that forwards it has its delivery logs in
FIFO order. -/
theorem fifo_order_witness :
    (⟨7, [], [], 0, 1, [], [0]⟩ : GState).recvOut.Sorted (· < ·) ∧
    (⟨7, [], [], 0, 1, [], [0]⟩ : GState).sentOut.Sorted (· < ·) :=
  fifo_order 7 ⟨7, [], [], 0, 1, [], [0]⟩
    (GReach.poll 1 none (fun _ => true) 3
      (GReach.trans 0 [2] GReach.base) (by decide))
